import Mathlib

/-!
# certchk: a verification development

A shallow embedding of `certchk.go` (check certificates of https sites) and of the
parts of the Go standard library it relies on (`utf8.DecodeRuneInString`,
`unicode.IsSpace`, `strings.TrimSpace`, `strings.Fields`, `strings.Repeat`, the
`%*s` verb of `fmt.Printf`, buffered channels), followed by theorems about them.

A Go string is a sequence of bytes.  A byte is a natural number below 256; the
definitions treat any larger number as an invalid byte, so that a theorem over
all lists covers every Go string.
-/

namespace Certchk

/-! ## Strings -/

/-- A Go string: its bytes. -/
abbrev Str := List Nat

/-- The bytes of an ASCII literal. -/
def lit (s : String) : Str := s.toList.map Char.toNat

/-- The constant `utf8.RuneError`. -/
def RuneError : Nat := 0xFFFD

/-- The table `first` of package utf8 restricted to lead bytes of multi-byte
sequences: the size of the sequence and the accept range of its second byte. -/
def lead (s0 : Nat) : Option (Nat × Nat × Nat) :=
  if 0xC2 ≤ s0 ∧ s0 ≤ 0xDF then some (2, 0x80, 0xBF)
  else if s0 = 0xE0 then some (3, 0xA0, 0xBF)
  else if 0xE1 ≤ s0 ∧ s0 ≤ 0xEC then some (3, 0x80, 0xBF)
  else if s0 = 0xED then some (3, 0x80, 0x9F)
  else if 0xEE ≤ s0 ∧ s0 ≤ 0xEF then some (3, 0x80, 0xBF)
  else if s0 = 0xF0 then some (4, 0x90, 0xBF)
  else if 0xF1 ≤ s0 ∧ s0 ≤ 0xF3 then some (4, 0x80, 0xBF)
  else if s0 = 0xF4 then some (4, 0x80, 0x8F)
  else none

/-- The function `utf8.DecodeRuneInString`: the first rune of `s` and its width in
bytes; `(RuneError, 0)` for the empty string, `(RuneError, 1)` for an invalid
encoding. -/
def decodeRune (s : Str) : Nat × Nat :=
  match s with
  | [] => (RuneError, 0)
  | s0 :: t =>
    if s0 < 0x80 then (s0, 1) else
    match lead s0 with
    | none => (RuneError, 1)
    | some (sz, lo, hi) =>
      if s.length < sz then (RuneError, 1) else
      match t with
      | [] => (RuneError, 1)
      | s1 :: t1 =>
        if s1 < lo ∨ hi < s1 then (RuneError, 1) else
        if sz ≤ 2 then ((s0 % 32) * 64 + s1 % 64, 2) else
        match t1 with
        | [] => (RuneError, 1)
        | s2 :: t2 =>
          if s2 < 0x80 ∨ 0xBF < s2 then (RuneError, 1) else
          if sz ≤ 3 then ((s0 % 16) * 4096 + (s1 % 64) * 64 + s2 % 64, 3) else
          match t2 with
          | [] => (RuneError, 1)
          | s3 :: _ =>
            if s3 < 0x80 ∨ 0xBF < s3 then (RuneError, 1) else
            ((s0 % 8) * 262144 + (s1 % 64) * 4096 + (s2 % 64) * 64 + s3 % 64, 4)

/-- The function `unicode.IsSpace`. -/
def isSpace (r : Nat) : Bool :=
  if r ≤ 0xFF then
    r = 0x09 || r = 0x0A || r = 0x0B || r = 0x0C || r = 0x0D || r = 0x20 || r = 0x85 || r = 0xA0
  else
    r = 0x1680 || (0x2000 ≤ r && r ≤ 0x200A) || r = 0x2028 || r = 0x2029 || r = 0x202F
      || r = 0x205F || r = 0x3000

/-- A decoded rune together with the bytes it occupies. -/
abbrev Chunk := Nat × Str

/-- The loop `for i, r := range s` with `fuel` iterations left: the runes of `s`, each with
its bytes. -/
def runesAux : Nat → Str → List Chunk
  | 0, _ => []
  | _ + 1, [] => []
  | fuel + 1, s =>
    let d := decodeRune s
    (d.1, s.take d.2) :: runesAux fuel (s.drop d.2)

/-- The runes of `s` in order, each with its bytes (every iteration consumes a byte at least,
so `s.length` iterations are enough). -/
def runes (s : Str) : List Chunk := runesAux s.length s

/-- The function `utf8.RuneCountInString`. -/
def runeCount (s : Str) : Nat := (runes s).length

/-- The bytes of a run of chunks. -/
def bytesOf (cs : List Chunk) : Str := (cs.map Prod.snd).flatten

/-- Whether a chunk is white space. -/
def spaceChunk (c : Chunk) : Bool := isSpace c.1

/-- Drops the longest suffix of `l` whose elements satisfy `p`. -/
def dropRightWhile {α : Type} (p : α → Bool) (l : List α) : List α :=
  l.foldr (fun a acc => if acc.isEmpty && p a then [] else a :: acc) []

/-- The runes of `s` without the leading and the trailing white space. -/
def trimmed (s : Str) : List Chunk :=
  dropRightWhile spaceChunk ((runes s).dropWhile spaceChunk)

/-- The function `strings.TrimSpace`: the slice of `s` with all leading and trailing white
space removed, as defined by Unicode.  (Go finds the trailing runes by decoding backwards,
which meets the same runes as decoding forwards: a lead byte is never inside another
rune.) -/
def TrimSpace (s : Str) : Str := bytesOf (trimmed s)

/-- The loop of `strings.FieldsFunc` over the runes of the string; `cur` is the field that
is open (`start >= 0`), if any. -/
def fieldsGo : List Chunk → Option Str → List Str
  | [], none => []
  | [], some f => [f]
  | c :: rest, cur =>
    if isSpace c.1 then
      match cur with
      | some f => f :: fieldsGo rest none
      | none => fieldsGo rest none
    else
      match cur with
      | some f => fieldsGo rest (some (f ++ c.2))
      | none => fieldsGo rest (some c.2)

/-- The function `strings.Fields`: `s` split around each instance of one or more
consecutive white space runes, that is `FieldsFunc(s, unicode.IsSpace)`, with which the
path Go takes for ASCII strings agrees. -/
def Fields (s : Str) : List Str := fieldsGo (runes s) none


/-! ## Collecting the server names (`getNames`) -/

/-- How a piece of the program ends: it returns a value, it calls `os.Exit`, or it
panics. -/
inductive Run (α : Type) where
  | ok (a : α)
  | exit (code : Nat)
  | panic
  deriving DecidableEq, Repr

/-- What `bufio.Scanner` delivers for the domain file: the lines `scanner.Text()` returns
while `scanner.Scan()` is true, and `scanner.Err()` after the loop. -/
structure Scanned where
  lines : List Str
  err : Option Str
  deriving DecidableEq, Repr

/-- The first element of the slice `xs`: `xs[0]`, which panics (`none`) on an empty slice. -/
def index0 (xs : List Str) : Option Str :=
  match xs with
  | [] => none
  | f :: _ => some f

/-- One iteration of the scan loop of `getNames`:
`line := strings.TrimSpace(scanner.Text())`, then
`if len(line) > 0 && line[0] != '#' { names = append(names, strings.Fields(line)[0]) }`. -/
def scanLine (names : List Str) (text : Str) : Option (List Str) :=
  let line := TrimSpace text
  match line with
  | [] => some names
  | b :: _ =>
    if b ≠ 0x23 then
      match index0 (Fields line) with
      | none => none
      | some f => some (names ++ [f])
    else some names

/-- The scan loop `for scanner.Scan() { ... }` of `getNames`. -/
def scanLoop : List Str → List Str → Option (List Str)
  | names, [] => some names
  | names, text :: more =>
    match scanLine names text with
    | none => none
    | some names1 => scanLoop names1 more

/-- The function `getNames`.  `domainFile` is the flag `-f`, `file` what opening and
scanning that file gives (an error of `os.Open`, or the scanned lines), `args` is
`flag.Args()`. -/
def getNames (domainFile : Str) (file : Except Str Scanned) (args : List Str) :
    Run (List Str) :=
  if domainFile.length > 0 then
    match file with
    | .error _ => .exit 1
    | .ok f =>
      match scanLoop [] f.lines with
      | none => .panic
      | some names =>
        match f.err with
        | some _ => .exit 1
        | none => .ok (names ++ args)
  else .ok ([] ++ args)

/-- In the words of the specification: the first whitespace-delimited token of a line, that
is the leading white space skipped and the runes up to the next white space taken. -/
def firstToken (line : Str) : Str :=
  bytesOf (((runes line).dropWhile spaceChunk).takeWhile (fun c => !spaceChunk c))

/-- In the words of the specification: a line is a record when, after trimming surrounding
white space, it is non-empty and does not start with `#`. -/
def isRecord (line : Str) : Bool :=
  match TrimSpace line with
  | [] => false
  | b :: _ => b != 0x23

/-- In the words of the specification: the names are the first tokens of the records of the
file, in file order, followed by the command-line arguments. -/
def namesSpec (lines args : List Str) : List Str :=
  (lines.filter isRecord).map firstToken ++ args


/-! ## Printing -/

/-- The function `strings.Repeat`; it panics (`none`) on a negative count. -/
def Repeat (s : Str) (count : Int) : Option Str :=
  if count < 0 then none else some (List.replicate count.toNat s).flatten

/-- The verb `%*s` of `fmt.Printf`, given its width argument and its string argument.  A
width beyond a million either way is refused by package fmt, which then writes
`%!(BADWIDTH)` and the string unpadded; a negative width pads on the right; padding counts
runes. -/
def fmtStarS (width : Int) (s : Str) : Str :=
  if width > 1000000 ∨ width < -1000000 then lit "%!(BADWIDTH)" ++ s
  else if width < 0 then s ++ List.replicate ((-width).toNat - runeCount s) 0x20
  else List.replicate (width.toNat - runeCount s) 0x20 ++ s

/-- The calendar date of a `time.Time` in its own location (what `t.Date()` returns), and
the time of day, which no format used here shows. -/
structure Time where
  year : Int
  month : Nat
  day : Nat
  clock : Nat
  deriving DecidableEq, Repr

/-- The helper `appendInt` of package time: `x` in decimal, zero-padded to `width` digits,
after a minus sign when negative. -/
def appendInt (x : Int) (width : Nat) : Str :=
  let digits := (Nat.toDigits 10 x.natAbs).map Char.toNat
  (if x < 0 then [0x2D] else []) ++ List.replicate (width - digits.length) 0x30 ++ digits

/-- The call `t.Format("2006-01-02")`. -/
def formatDate (t : Time) : Str :=
  appendInt t.year 4 ++ [0x2D] ++ appendInt t.month 2 ++ [0x2D] ++ appendInt t.day 2

/-- Whether a byte is an ASCII decimal digit. -/
def isDigit (b : Nat) : Bool := 0x30 ≤ b && b ≤ 0x39

/-- Whether a string has the form YYYY-MM-DD: four digits, a hyphen, two digits, a hyphen,
two digits. -/
def isoDate (s : Str) : Bool :=
  match s with
  | [y1, y2, y3, y4, h1, m1, m2, h2, d1, d2] =>
    isDigit y1 && isDigit y2 && isDigit y3 && isDigit y4 && h1 == 0x2D
      && isDigit m1 && isDigit m2 && h2 == 0x2D && isDigit d1 && isDigit d2
  | _ => false

/-! ## Probing one server (`check`) -/

/-- An `x509.Certificate`, of which the program reads `NotAfter` only. -/
structure Certificate where
  NotAfter : Time
  deriving DecidableEq, Repr

/-- A `tls.Conn` after a successful dial: what `conn.VerifyHostname(server)` returns (`none`
for nil, else the description of the error) and
`conn.ConnectionState().PeerCertificates`. -/
structure Conn where
  verifyHostname : Option Str
  PeerCertificates : List Certificate
  deriving DecidableEq, Repr

/-- What a call of `check` does, in order. -/
inductive Event where
  | dial (addr : Str)
  | verify (server : Str)
  | peerCertificates
  | print (line : Str)
  | close
  deriving DecidableEq, Repr

/-- The lines written to standard output. -/
def prints (evs : List Event) : List Str :=
  evs.filterMap (fun e => match e with
    | .print line => some line
    | _ => none)

/-- The body of the loop over the peer certificates in `check`, at certificate `c`. -/
def report (scriptOutput : Bool) (humanize : Time → Str) (server : Str) (width : Int)
    (valid : Option Str) (c : Certificate) : Str :=
  match valid with
  | none =>
    if scriptOutput then
      fmtStarS width server ++ lit " valid " ++ formatDate c.NotAfter ++ lit "\n"
    else
      fmtStarS width server ++ lit " | valid, expires on " ++ formatDate c.NotAfter
        ++ lit " (" ++ humanize c.NotAfter ++ lit ")\n"
  | some e => fmtStarS width server ++ lit ", " ++ e ++ lit "\n"

/-- The function `check`.  `scriptOutput` is the flag `-s`, `humanize` is `humanize.Time`,
`dial` is what `tls.DialWithDialer` returns for an address (the description of the error, or
the connection).  The loop over the peer certificates returns at the end of its first
iteration, so that its body runs for the first certificate if there is one and not at all
otherwise; `conn.Close()` is deferred. -/
def check (scriptOutput : Bool) (humanize : Time → Str) (dial : Str → Except Str Conn)
    (server : Str) (width : Int) : List Event :=
  match dial (server ++ lit ":443") with
  | .error err =>
    if scriptOutput then
      [.dial (server ++ lit ":443"),
        .print (fmtStarS width server ++ lit " error 1970-01-01 (" ++ err ++ lit ")\n")]
    else
      [.dial (server ++ lit ":443"),
        .print (fmtStarS width server ++ lit " | " ++ err ++ lit "\n")]
  | .ok conn =>
    let valid := conn.verifyHostname
    match conn.PeerCertificates with
    | [] => [.dial (server ++ lit ":443"), .verify server, .peerCertificates, .close]
    | c :: _ =>
      [.dial (server ++ lit ":443"), .verify server, .peerCertificates,
        .print (report scriptOutput humanize server width valid c), .close]

/-! ## The main program -/

/-- The constant `toolVersion`. -/
def toolVersion : Str := lit "0.2"

/-- The flags and arguments of an invocation: `-s`, `-version`, `-f`, `flag.Args()` and
`os.Args[0]`. -/
structure Flags where
  scriptOutput : Bool
  versionCheck : Bool
  domainFile : Str
  args : List Str
  prog : Str
  deriving DecidableEq, Repr

/-- The loop of `main` that computes `width`. -/
def width (names : List Str) : Nat :=
  names.foldl (fun w name => if name.length > w then name.length else w) 0

/-- The second line of the header: `strings.Repeat("-", width)`, `-+-` and
`strings.Repeat("-", 80-width-2)`; `none` when a `Repeat` panics. -/
def separator (width : Nat) : Option Str :=
  match Repeat (lit "-") width, Repeat (lit "-") (80 - (width : Int) - 2) with
  | some a, some b => some (a ++ lit "-+-" ++ b)
  | _, _ => none

/-- The header that `main` prints when `scriptOutput` is false; its arguments are evaluated
before anything is written, so a panic leaves no output. -/
def header (width : Nat) : Option Str :=
  match separator width with
  | some sep =>
    some (fmtStarS width (lit "Server") ++ lit " | Certificate status\n" ++ sep ++ lit "\n")
  | none => none

/-- Where `main` stands when its sequential part is over: it has left through `os.Exit`, it
has panicked, or it is about to launch the probes for `names`, with `out` written so far. -/
inductive Start where
  | exit (code : Nat) (out : List Str)
  | panic
  | launch (names : List Str) (out : List Str)
  deriving DecidableEq, Repr

/-- The function `main` up to the comment `actually check`. -/
def mainStart (fl : Flags) (file : Except Str Scanned) : Start :=
  if fl.versionCheck then
    .exit 0 [fl.prog ++ lit " v" ++ toolVersion ++ lit "\n"]
  else if fl.args.length = 0 ∧ fl.domainFile.length = 0 then .exit 1 []
  else
    match getNames fl.domainFile file fl.args with
    | .exit code => .exit code []
    | .panic => .panic
    | .ok names =>
      if ¬ fl.scriptOutput then
        match header (width names) with
        | none => .panic
        | some h => .launch names [h]
      else .launch names []

/-- What the probes run in: the flag `-s`, `humanize.Time`, the names, and for the probe
launched for `names[k]` what its dial returns. -/
structure World where
  scriptOutput : Bool
  humanize : Time → Str
  names : List Str
  net : Nat → Str → Except Str Conn

/-- Where a launched goroutine stands: before `check`, between `check` and `done <- true`,
or after the send. -/
inductive Phase where
  | ready
  | checked
  | done
  deriving DecidableEq, Repr

/-- The state of the second half of `main`: the number of goroutines launched, the phase of
each, the number of values in the channel `done` (of capacity `len(names)`), the counter `i`
of the receiving loop, whether `main` has returned, and standard output. -/
structure Sys where
  launched : Nat
  phases : List Phase
  buf : Nat
  received : Nat
  exited : Bool
  out : List Str
  deriving DecidableEq, Repr

/-- The atomic steps: `main` launches the next goroutine, goroutine `k` runs `check`,
goroutine `k` sends on `done`, `main` receives from `done`, `main` returns. -/
inductive Action where
  | launch
  | check (k : Nat)
  | send (k : Nat)
  | recv
  | exit
  deriving DecidableEq, Repr

/-- The lines the probe launched for `names[k]` writes. -/
def emitted (w : World) (k : Nat) : List Str :=
  prints (check w.scriptOutput w.humanize (w.net k) (w.names.getD k []) (width w.names))

/-- One step of the program, `none` when the step is not enabled (a send on a full channel
and a receive on an empty one block; nothing runs once `main` has returned). -/
def step (w : World) (s : Sys) : Action → Option Sys
  | .launch =>
    if s.exited = false ∧ s.launched < w.names.length then
      some { s with launched := s.launched + 1, phases := s.phases ++ [.ready] }
    else none
  | .check k =>
    if s.exited = false ∧ s.phases[k]? = some .ready then
      some { s with phases := s.phases.set k .checked, out := s.out ++ emitted w k }
    else none
  | .send k =>
    if s.exited = false ∧ s.phases[k]? = some .checked ∧ s.buf < w.names.length then
      some { s with phases := s.phases.set k .done, buf := s.buf + 1 }
    else none
  | .recv =>
    if s.exited = false ∧ s.launched = w.names.length ∧ s.received < w.names.length
        ∧ 0 < s.buf then
      some { s with buf := s.buf - 1, received := s.received + 1 }
    else none
  | .exit =>
    if s.exited = false ∧ s.launched = w.names.length ∧ s.received = w.names.length then
      some { s with exited := true }
    else none

/-- A run: the steps of a schedule, one after the other. -/
def run (w : World) (s : Sys) : List Action → Option Sys
  | [] => some s
  | a :: rest =>
    match step w s a with
    | none => none
    | some s1 => run w s1 rest

/-- The state in which `main` starts launching, with `out` on standard output. -/
def start (out : List Str) : Sys :=
  { launched := 0, phases := [], buf := 0, received := 0, exited := false, out := out }

/-- The steps a goroutine in a given phase has left. -/
def Phase.left : Phase → Nat
  | .ready => 2
  | .checked => 1
  | .done => 0

/-- The sum over the goroutines of a quantity that depends on the index and the phase,
the first goroutine of the list having index `k`. -/
def tallyFrom {M : Type} [AddCommMonoid M] (f : Nat → Phase → M) : Nat → List Phase → M
  | _, [] => 0
  | k, ph :: rest => f k ph + tallyFrom f (k + 1) rest

/-- The number of sends on `done` that have completed. -/
def sentCount (phases : List Phase) : Nat :=
  tallyFrom (fun _ ph => if ph = .done then 1 else 0) 0 phases

/-- The lines written by the goroutines that have run `check`, as a multiset. -/
def written (w : World) (phases : List Phase) : Multiset Str :=
  tallyFrom (fun k ph => if ph = .ready then 0 else (emitted w k : Multiset Str)) 0 phases

/-- The number of steps a state is away from the return of `main`. -/
def stepsLeft (w : World) (s : Sys) : Nat :=
  3 * (w.names.length - s.launched) + tallyFrom (fun _ ph => ph.left) 0 s.phases
    + (w.names.length - s.received) + (if s.exited then 0 else 1)

/-- Whether the probe launched for `names[k]` writes a line: its dial fails, or its
connection presents a peer certificate at least. -/
def emits (w : World) (k : Nat) : Bool :=
  match w.net k (w.names.getD k [] ++ lit ":443") with
  | .error _ => true
  | .ok conn => !conn.PeerCertificates.isEmpty

/-- The invariant of the second half of `main`, started with `out0` on standard output. -/
def Inv (w : World) (out0 : List Str) (s : Sys) : Prop :=
  s.phases.length = s.launched ∧ s.launched ≤ w.names.length
  ∧ s.received ≤ w.names.length
  ∧ sentCount s.phases = s.buf + s.received
  ∧ (0 < s.received → s.launched = w.names.length)
  ∧ (s.exited = true → s.launched = w.names.length ∧ s.received = w.names.length)
  ∧ ∃ l, s.out = out0 ++ l ∧ (l : Multiset Str) = written w s.phases

/-- A world with one name, whose server completes the handshake and presents no
certificate. -/
def silentWorld : World :=
  { scriptOutput := true, humanize := fun _ => [], names := [lit "a.com"],
    net := fun _ _ => .ok ⟨none, []⟩ }

/-- A world with two names: the dial of the first is refused, the second presents a
certificate that is valid for it. -/
def sampleWorld : World :=
  { scriptOutput := true, humanize := fun _ => [], names := [lit "a.com", lit "bb.org"],
    net := fun k _ => if k = 0 then .error (lit "refused") else .ok ⟨none, [⟨⟨2030, 1, 1, 0⟩⟩]⟩ }

/-! ## The definitions on sample inputs -/

theorem Fields_sample : Fields (lit "  ab  c d ") = [lit "ab", lit "c", lit "d"] := by decide

theorem TrimSpace_sample : TrimSpace (lit " \t ab  c d \n") = lit "ab  c d" := by decide

theorem TrimSpace_unicode_sample :
    TrimSpace [0xE2, 0x80, 0x80, 0x41, 0xC2, 0xA0] = [0x41] := by decide

theorem runes_invalid_sample : runes [0xE2, 0x80, 0x41, 0xF0, 0x9F, 0x98, 0x80] =
    [(0xFFFD, [0xE2]), (0xFFFD, [0x80]), (0x41, [0x41]),
      (0x1F600, [0xF0, 0x9F, 0x98, 0x80])] := by decide

theorem getNames_sample : getNames (lit "d.txt")
    (.ok ⟨[lit "  a.com  x", lit "", lit " # c", lit "b.org"], none⟩) [lit "z.net"]
    = .ok [lit "a.com", lit "b.org", lit "z.net"] := by decide

theorem check_sample :
    prints (check true (fun _ => []) (fun _ => .ok ⟨none, [⟨⟨2030, 1, 1, 0⟩⟩]⟩) (lit "a.com") 7)
      = [lit "  a.com valid 2030-01-01\n"] := by decide

theorem header_sample : header 5 = some (lit
    "Server | Certificate status\n------+--------------------------------------------------------------------------\n") := by
  decide

/-! ## Lemmas on decoding -/

theorem lead_size (s0 sz lo hi : Nat) (h : lead s0 = some (sz, lo, hi)) :
    (sz = 2 ∨ sz = 3 ∨ sz = 4) ∧ 0x80 ≤ lo ∧ 0x80 ≤ s0 := by
  unfold lead at h
  split_ifs at h <;> simp at h <;> omega

theorem decodeRune_width (s : Str) (h : s ≠ []) :
    1 ≤ (decodeRune s).2 ∧ (decodeRune s).2 ≤ s.length := by
  unfold decodeRune
  split
  · exact absurd rfl h
  · split_ifs
    · simp
    · repeat' split
      all_goals simp_all

theorem decodeRune_ascii (a : Nat) (t : Str) (ha : a < 0x80) : decodeRune (a :: t) = (a, 1) := by
  simp [decodeRune, ha]

theorem decodeRune_bad (a : Nat) (t : Str) (ha : ¬ a < 0x80) (hl : lead a = none) :
    decodeRune (a :: t) = (RuneError, 1) := by
  simp [decodeRune, ha, hl]

theorem decodeRune_two (a lo hi : Nat) (t : Str) (ha : ¬ a < 0x80)
    (hl : lead a = some (2, lo, hi)) :
    decodeRune (a :: t) =
      match t with
      | [] => (RuneError, 1)
      | s1 :: _ => if s1 < lo ∨ hi < s1 then (RuneError, 1) else ((a % 32) * 64 + s1 % 64, 2) := by
  rcases t with _ | ⟨b, t⟩ <;> simp [decodeRune, ha, hl]

theorem decodeRune_three (a lo hi : Nat) (t : Str) (ha : ¬ a < 0x80)
    (hl : lead a = some (3, lo, hi)) :
    decodeRune (a :: t) =
      match t with
      | [] => (RuneError, 1)
      | [_] => (RuneError, 1)
      | s1 :: s2 :: _ =>
        if s1 < lo ∨ hi < s1 then (RuneError, 1) else
        if s2 < 0x80 ∨ 0xBF < s2 then (RuneError, 1) else
        ((a % 16) * 4096 + (s1 % 64) * 64 + s2 % 64, 3) := by
  rcases t with _ | ⟨b, _ | ⟨c, t⟩⟩ <;> simp [decodeRune, ha, hl]

theorem decodeRune_fourBytes (a lo hi : Nat) (t : Str) (ha : ¬ a < 0x80)
    (hl : lead a = some (4, lo, hi)) :
    decodeRune (a :: t) =
      match t with
      | [] => (RuneError, 1)
      | [_] => (RuneError, 1)
      | [_, _] => (RuneError, 1)
      | s1 :: s2 :: s3 :: _ =>
        if s1 < lo ∨ hi < s1 then (RuneError, 1) else
        if s2 < 0x80 ∨ 0xBF < s2 then (RuneError, 1) else
        if s3 < 0x80 ∨ 0xBF < s3 then (RuneError, 1) else
        ((a % 8) * 262144 + (s1 % 64) * 4096 + (s2 % 64) * 64 + s3 % 64, 4) := by
  rcases t with _ | ⟨b, _ | ⟨c, _ | ⟨d, t⟩⟩⟩ <;> simp [decodeRune, ha, hl]

theorem decodeRune_prefix (p q : Str) (hp : p ≠ [])
    (hw : (decodeRune (p ++ q)).2 ≤ p.length) : decodeRune p = decodeRune (p ++ q) := by
  rcases p with _ | ⟨a, p⟩
  · exact absurd rfl hp
  rw [List.cons_append] at hw ⊢
  by_cases ha : a < 0x80
  · rw [decodeRune_ascii a _ ha, decodeRune_ascii a _ ha]
  cases hl : lead a with
  | none => rw [decodeRune_bad a _ ha hl, decodeRune_bad a _ ha hl]
  | some v =>
    obtain ⟨sz, lo, hi⟩ := v
    rcases (lead_size a sz lo hi hl).1 with h | h | h <;> subst h
    · rw [decodeRune_two a lo hi _ ha hl] at hw ⊢
      rw [decodeRune_two a lo hi _ ha hl]
      rcases p with _ | ⟨b, p⟩
      · rcases q with _ | ⟨b, q⟩
        · rfl
        · simp only [List.nil_append, List.length_cons, List.length_nil] at hw ⊢
          split_ifs at hw ⊢ <;> simp_all
      · rfl
    · rw [decodeRune_three a lo hi _ ha hl] at hw ⊢
      rw [decodeRune_three a lo hi _ ha hl]
      rcases p with _ | ⟨b, _ | ⟨c, p⟩⟩
      · rcases q with _ | ⟨b, _ | ⟨c, q⟩⟩
        · rfl
        · rfl
        · simp only [List.nil_append, List.length_cons, List.length_nil] at hw ⊢
          split_ifs at hw ⊢ <;> simp_all
      · rcases q with _ | ⟨c, q⟩
        · rfl
        · simp only [List.nil_append, List.cons_append, List.length_cons, List.length_nil] at hw ⊢
          split_ifs at hw ⊢ <;> simp_all
      · rfl
    · rw [decodeRune_fourBytes a lo hi _ ha hl] at hw ⊢
      rw [decodeRune_fourBytes a lo hi _ ha hl]
      rcases p with _ | ⟨b, _ | ⟨c, _ | ⟨d, p⟩⟩⟩
      · rcases q with _ | ⟨b, _ | ⟨c, _ | ⟨d, q⟩⟩⟩
        · rfl
        · rfl
        · rfl
        · simp only [List.nil_append, List.length_cons, List.length_nil] at hw ⊢
          split_ifs at hw ⊢ <;> simp_all
      · rcases q with _ | ⟨c, _ | ⟨d, q⟩⟩
        · rfl
        · rfl
        · simp only [List.nil_append, List.cons_append, List.length_cons, List.length_nil] at hw ⊢
          split_ifs at hw ⊢ <;> simp_all
      · rcases q with _ | ⟨d, q⟩
        · rfl
        · simp only [List.nil_append, List.cons_append, List.length_cons, List.length_nil] at hw ⊢
          split_ifs at hw ⊢ <;> simp_all
      · rfl

/-! ## Lemmas on the runes of a string -/

theorem runesAux_fuel (fuel : Nat) : ∀ s : Str, s.length ≤ fuel →
    runesAux fuel s = runesAux s.length s := by
  induction fuel using Nat.strong_induction_on with
  | _ fuel ih =>
    intro s hs
    rcases s with _ | ⟨a, t⟩
    · cases fuel <;> rfl
    · obtain ⟨f, rfl⟩ : ∃ f, fuel = f + 1 := ⟨fuel - 1, by simp at hs; omega⟩
      have hw := decodeRune_width (a :: t) (by simp)
      have hlen : ((a :: t).drop (decodeRune (a :: t)).2).length ≤ t.length := by
        simp only [List.length_drop, List.length_cons] at hw ⊢; omega
      simp only [List.length_cons] at hs
      simp only [runesAux, List.length_cons]
      rw [ih f (by omega) _ (by omega), ih t.length (by omega) _ hlen]

theorem runes_nil : runes [] = [] := rfl

theorem runes_cons (s : Str) (h : s ≠ []) :
    runes s = ((decodeRune s).1, s.take (decodeRune s).2) :: runes (s.drop (decodeRune s).2) := by
  rcases s with _ | ⟨a, t⟩
  · exact absurd rfl h
  · have hw := decodeRune_width (a :: t) (by simp)
    have hlen : ((a :: t).drop (decodeRune (a :: t)).2).length ≤ t.length := by
      simp only [List.length_drop, List.length_cons] at hw ⊢; omega
    show runesAux (t.length + 1) (a :: t) = _
    simp only [runesAux, runes]
    rw [runesAux_fuel t.length _ hlen]

theorem runes_eq_nil (s : Str) (h : runes s = []) : s = [] := by
  by_contra hs
  rw [runes_cons s hs] at h
  exact List.cons_ne_nil _ _ h

theorem bytesOf_nil : bytesOf [] = [] := rfl

theorem bytesOf_cons (c : Chunk) (cs : List Chunk) : bytesOf (c :: cs) = c.2 ++ bytesOf cs := by
  simp [bytesOf]

theorem bytesOf_append (xs ys : List Chunk) : bytesOf (xs ++ ys) = bytesOf xs ++ bytesOf ys := by
  simp [bytesOf]

/-- Induction along the decoding loop. -/
theorem decode_induction (P : Str → Prop) (h0 : P [])
    (hstep : ∀ s : Str, s ≠ [] → P (s.drop (decodeRune s).2) → P s) : ∀ s, P s := by
  have key : ∀ n, ∀ s : Str, s.length ≤ n → P s := by
    intro n
    induction n with
    | zero =>
      intro s hs
      have : s = [] := List.eq_nil_of_length_eq_zero (by omega)
      rw [this]; exact h0
    | succ n ih =>
      intro s hs
      by_cases hne : s = []
      · rw [hne]; exact h0
      · have hw := decodeRune_width s hne
        exact hstep s hne (ih _ (by rw [List.length_drop]; omega))
  exact fun s => key s.length s (Nat.le_refl _)

theorem bytesOf_runes (s : Str) : bytesOf (runes s) = s := by
  induction s using decode_induction with
  | h0 => rfl
  | hstep s hs ih =>
    rw [runes_cons s hs, bytesOf_cons, ih]
    exact List.take_append_drop _ _

/-- Every rune of a string occupies at least one byte. -/
theorem runes_chunk_ne_nil (s : Str) : ∀ c ∈ runes s, c.2 ≠ [] := by
  induction s using decode_induction with
  | h0 => intro c hc; simp [runes_nil] at hc
  | hstep s hs ih =>
    have hw := decodeRune_width s hs
    rw [runes_cons s hs]
    intro c hc
    rcases List.mem_cons.1 hc with rfl | hc
    · intro h
      have := congrArg List.length h
      simp only [List.length_take, List.length_nil] at this
      omega
    · exact ih c hc

/-- The runes of a string from a rune boundary on are the remaining runes. -/
theorem runes_suffix (pre : List Chunk) : ∀ (s : Str) (rest : List Chunk),
    runes s = pre ++ rest → runes (bytesOf rest) = rest := by
  induction pre with
  | nil => intro s rest h; rw [List.nil_append] at h; rw [← h, bytesOf_runes]
  | cons c pre ih =>
    intro s rest h
    have hs : s ≠ [] := by rintro rfl; simp [runes_nil] at h
    rw [runes_cons s hs, List.cons_append] at h
    exact ih _ rest (List.cons.inj h).2

/-- The runes of a string up to a rune boundary are the runes before it. -/
theorem runes_prefix (cs : List Chunk) : ∀ (s : Str) (post : List Chunk),
    runes s = cs ++ post → runes (bytesOf cs) = cs := by
  induction cs with
  | nil => intro _ _ _; rfl
  | cons c cs ih =>
    intro s post h
    have hs : s ≠ [] := by rintro rfl; simp [runes_nil] at h
    have hw := decodeRune_width s hs
    rw [runes_cons s hs, List.cons_append] at h
    obtain ⟨hc, hrest⟩ := List.cons.inj h
    have ih1 := ih _ post hrest
    have hsplit : s.drop (decodeRune s).2 = bytesOf cs ++ bytesOf post := by
      rw [← bytesOf_append, ← hrest, bytesOf_runes]
    have hlen : (s.take (decodeRune s).2).length = (decodeRune s).2 := by
      rw [List.length_take]; omega
    have hsq : s = (s.take (decodeRune s).2 ++ bytesOf cs) ++ bytesOf post := by
      rw [List.append_assoc, ← hsplit, List.take_append_drop]
    have hne : s.take (decodeRune s).2 ++ bytesOf cs ≠ [] := by
      intro h0
      have := congrArg List.length h0
      rw [List.length_append, hlen] at this
      simp at this; omega
    have hdec : decodeRune (s.take (decodeRune s).2 ++ bytesOf cs) = decodeRune s := by
      have := decodeRune_prefix _ (bytesOf post) hne (by
        rw [← hsq, List.length_append, hlen]; omega)
      rw [this, ← hsq]
    rw [bytesOf_cons, ← hc]
    show runes (s.take (decodeRune s).2 ++ bytesOf cs) = _
    rw [runes_cons _ hne, hdec]
    have ht : (s.take (decodeRune s).2 ++ bytesOf cs).take (decodeRune s).2
        = s.take (decodeRune s).2 := by
      rw [List.take_append_of_le_length (by omega), List.take_take, Nat.min_self]
    have hd : (s.take (decodeRune s).2 ++ bytesOf cs).drop (decodeRune s).2 = bytesOf cs := by
      rw [List.drop_append_of_le_length (by omega), List.drop_eq_nil_of_le (by omega),
        List.nil_append]
    rw [ht, hd, ih1]

/-- The runes of a substring that starts and ends at rune boundaries are the runes of the
string in between. -/
theorem runes_segment (s : Str) (pre cs post : List Chunk) (h : runes s = pre ++ cs ++ post) :
    runes (bytesOf cs) = cs := by
  rw [List.append_assoc] at h
  have h1 := runes_suffix pre s (cs ++ post) h
  exact runes_prefix cs _ post h1

/-- An ASCII byte among the bytes of the first rune is that rune, alone. -/
theorem decodeRune_take_ascii (s : Str) (hs : s ≠ []) (b : Nat)
    (hb : b ∈ s.take (decodeRune s).2) (hlt : b < 0x80) :
    (decodeRune s).1 = b ∧ s.take (decodeRune s).2 = [b] := by
  rcases s with _ | ⟨a, t⟩
  · exact absurd rfl hs
  by_cases ha : a < 0x80
  · rw [decodeRune_ascii a t ha] at hb ⊢
    simp only [List.take_succ_cons, List.take_zero, List.mem_singleton] at hb ⊢
    subst hb
    exact ⟨rfl, rfl⟩
  cases hl : lead a with
  | none =>
    rw [decodeRune_bad a t ha hl] at hb
    simp only [List.take_succ_cons, List.take_zero, List.mem_singleton] at hb
    omega
  | some v =>
    obtain ⟨sz, lo, hi⟩ := v
    have hlo := (lead_size a sz lo hi hl).2.1
    rcases (lead_size a sz lo hi hl).1 with h | h | h <;> subst h
    · rw [decodeRune_two a lo hi t ha hl] at hb
      rcases t with _ | ⟨s1, t⟩
      · simp at hb; omega
      · simp only at hb
        split_ifs at hb with h1 <;> simp at hb <;> omega
    · rw [decodeRune_three a lo hi t ha hl] at hb
      rcases t with _ | ⟨s1, _ | ⟨s2, t⟩⟩
      · simp at hb; omega
      · simp at hb; omega
      · simp only at hb
        split_ifs at hb with h1 h2 <;> simp at hb <;> omega
    · rw [decodeRune_fourBytes a lo hi t ha hl] at hb
      rcases t with _ | ⟨s1, _ | ⟨s2, _ | ⟨s3, t⟩⟩⟩
      · simp at hb; omega
      · simp at hb; omega
      · simp at hb; omega
      · simp only at hb
        split_ifs at hb with h1 h2 h3 <;> simp at hb <;> omega

/-- An ASCII byte of a string is a rune of its own. -/
theorem runes_ascii (s : Str) : ∀ c ∈ runes s, ∀ b ∈ c.2, b < 0x80 → c = (b, [b]) := by
  induction s using decode_induction with
  | h0 => intro c hc; simp [runes_nil] at hc
  | hstep s hs ih =>
    rw [runes_cons s hs]
    intro c hc b hb hlt
    rcases List.mem_cons.1 hc with rfl | hc
    · obtain ⟨h1, h2⟩ := decodeRune_take_ascii s hs b hb hlt
      rw [h1, h2]
    · exact ih c hc b hb hlt

theorem mem_bytesOf (cs : List Chunk) (b : Nat) (h : b ∈ bytesOf cs) : ∃ c ∈ cs, b ∈ c.2 := by
  unfold bytesOf at h
  obtain ⟨l, hl, hb⟩ := List.mem_flatten.1 h
  obtain ⟨c, hc, rfl⟩ := List.mem_map.1 hl
  exact ⟨c, hc, hb⟩

/-- A string none of whose runes is white space has no ASCII white space byte. -/
theorem no_space_byte (tok : Str) (h : ∀ c ∈ runes tok, isSpace c.1 = false) :
    ∀ b ∈ tok, b < 0x80 → isSpace b = false := by
  intro b hb hlt
  rw [← bytesOf_runes tok] at hb
  obtain ⟨c, hc, hbc⟩ := mem_bytesOf _ b hb
  have := runes_ascii tok c hc b hbc hlt
  have h2 := h c hc
  rw [this] at h2
  exact h2

/-! ## Lemmas on trimming and splitting -/

theorem dropRightWhile_cons {α : Type} (p : α → Bool) (a : α) (l : List α) :
    dropRightWhile p (a :: l) =
      if (dropRightWhile p l).isEmpty && p a then [] else a :: dropRightWhile p l := rfl

theorem dropRightWhile_prefix {α : Type} (p : α → Bool) (l : List α) :
    ∃ post, l = dropRightWhile p l ++ post := by
  induction l with
  | nil => exact ⟨[], rfl⟩
  | cons a l ih =>
    obtain ⟨post, hpost⟩ := ih
    rw [dropRightWhile_cons]
    split_ifs with h
    · exact ⟨a :: l, rfl⟩
    · exact ⟨post, by rw [List.cons_append, ← hpost]⟩

theorem takeWhile_dropRightWhile {α : Type} (p : α → Bool) (l : List α) :
    (dropRightWhile p l).takeWhile (fun c => !p c) = l.takeWhile (fun c => !p c) := by
  induction l with
  | nil => rfl
  | cons a l ih =>
    rw [dropRightWhile_cons]
    cases hp : p a
    · simp [List.takeWhile_cons, hp, ih]
    · by_cases he : (dropRightWhile p l).isEmpty = true
      · simp [List.takeWhile_cons, hp, he]
      · simp [List.takeWhile_cons, hp, he]

theorem dropWhile_head_false {α : Type} (p : α → Bool) (l : List α) (c : α) (r : List α)
    (h : l.dropWhile p = c :: r) : p c = false := by
  induction l with
  | nil => simp at h
  | cons a l ih =>
    rw [List.dropWhile_cons] at h
    split_ifs at h with hp
    · exact ih h
    · obtain ⟨rfl, _⟩ := List.cons.inj h
      simpa using hp

theorem runes_TrimSpace (s : Str) : runes (TrimSpace s) = trimmed s := by
  obtain ⟨post, hpost⟩ := dropRightWhile_prefix spaceChunk ((runes s).dropWhile spaceChunk)
  have h : runes s = (runes s).takeWhile spaceChunk ++ trimmed s ++ post := by
    rw [List.append_assoc, trimmed, ← hpost, List.takeWhile_append_dropWhile]
  exact runes_segment s _ _ _ h

theorem trimmed_head (s : Str) (c : Chunk) (r : List Chunk) (h : trimmed s = c :: r) :
    isSpace c.1 = false := by
  obtain ⟨post, hpost⟩ := dropRightWhile_prefix spaceChunk ((runes s).dropWhile spaceChunk)
  rw [show dropRightWhile spaceChunk ((runes s).dropWhile spaceChunk) = c :: r from h,
    List.cons_append] at hpost
  exact dropWhile_head_false spaceChunk _ c _ hpost

theorem fieldsGo_open (r : List Chunk) : ∀ f : Str, ∃ rest,
    fieldsGo r (some f) = (f ++ bytesOf (r.takeWhile (fun c => !spaceChunk c))) :: rest := by
  induction r with
  | nil => intro f; exact ⟨[], by simp [fieldsGo, bytesOf_nil]⟩
  | cons c r ih =>
    intro f
    cases hc : spaceChunk c
    · obtain ⟨rest, hrest⟩ := ih (f ++ c.2)
      refine ⟨rest, ?_⟩
      have hc1 : isSpace c.1 = false := hc
      simp only [fieldsGo, hc, hc1, List.takeWhile_cons, Bool.not_false, if_true,
        bytesOf_cons, Bool.false_eq_true, if_false]
      rw [hrest, List.append_assoc]
    · have hc1 : isSpace c.1 = true := hc
      exact ⟨fieldsGo r none, by simp [fieldsGo, hc, hc1, List.takeWhile_cons, bytesOf_nil]⟩

/-- The first field of a trimmed, non-empty line is the first token of the line. -/
theorem Fields_TrimSpace (s : Str) (h : TrimSpace s ≠ []) :
    ∃ rest, Fields (TrimSpace s) = firstToken s :: rest := by
  have hrun := runes_TrimSpace s
  rcases ht : trimmed s with _ | ⟨c, r⟩
  · exact absurd (by simp [TrimSpace, ht, bytesOf_nil] : TrimSpace s = []) h
  · have hc := trimmed_head s c r ht
    obtain ⟨rest, hrest⟩ := fieldsGo_open r c.2
    refine ⟨rest, ?_⟩
    have htok : firstToken s = c.2 ++ bytesOf (r.takeWhile (fun c => !spaceChunk c)) := by
      unfold firstToken
      rw [← takeWhile_dropRightWhile spaceChunk]
      show bytesOf ((trimmed s).takeWhile (fun c => !spaceChunk c)) = _
      rw [ht, List.takeWhile_cons]
      simp [spaceChunk, hc, bytesOf_cons]
    rw [Fields, hrun, ht, htok, ← hrest]
    simp [fieldsGo, hc]

/-- The first token of a line with a non-empty trimmed form is non-empty, and its runes are
the runes of the line it is made of, none of them white space. -/
theorem firstToken_runes (s : Str) (h : TrimSpace s ≠ []) :
    firstToken s ≠ [] ∧ ∀ c ∈ runes (firstToken s), isSpace c.1 = false := by
  have hrun := runes_TrimSpace s
  rcases ht : trimmed s with _ | ⟨c, r⟩
  · exact absurd (by simp [TrimSpace, ht, bytesOf_nil] : TrimSpace s = []) h
  · have hc := trimmed_head s c r ht
    have htk : ((runes s).dropWhile spaceChunk).takeWhile (fun c => !spaceChunk c)
        = (trimmed s).takeWhile (fun c => !spaceChunk c) := by
      rw [trimmed, takeWhile_dropRightWhile]
    have hseg : runes (firstToken s) = (trimmed s).takeWhile (fun c => !spaceChunk c) := by
      unfold firstToken
      rw [htk]
      exact runes_prefix _ (TrimSpace s) ((trimmed s).dropWhile (fun c => !spaceChunk c))
        (by rw [hrun, List.takeWhile_append_dropWhile])
    constructor
    · intro h0
      have h1 : runes (firstToken s) = [] := by rw [h0]; rfl
      rw [hseg, ht, List.takeWhile_cons] at h1
      simp [spaceChunk, hc] at h1
    · intro c1 hc1
      rw [hseg] at hc1
      have := List.mem_takeWhile_imp hc1
      simpa [spaceChunk] using this

/-! ## Lemmas on `getNames` and `width` -/

theorem scanLine_eq (names : List Str) (text : Str) :
    scanLine names text = some (if isRecord text then names ++ [firstToken text] else names) := by
  unfold scanLine isRecord
  rcases h : TrimSpace text with _ | ⟨b, t⟩
  · simp
  · obtain ⟨rest, hrest⟩ := Fields_TrimSpace text (by rw [h]; exact List.cons_ne_nil _ _)
    rw [h] at hrest
    by_cases hb : b = 0x23
    · simp [hb]
    · simp [hb, hrest, index0]

theorem scanLoop_eq (lines : List Str) : ∀ names : List Str,
    scanLoop names lines = some (names ++ (lines.filter isRecord).map firstToken) := by
  induction lines with
  | nil => intro names; simp [scanLoop]
  | cons text more ih =>
    intro names
    rw [scanLoop, scanLine_eq]
    simp only [ih]
    by_cases hr : isRecord text = true
    · simp [hr, List.filter_cons]
    · simp [hr, List.filter_cons]

theorem width_foldl (names : List Str) : ∀ w0 : Nat,
    w0 ≤ names.foldl (fun w name => if name.length > w then name.length else w) w0
    ∧ (∀ n ∈ names, n.length ≤ names.foldl (fun w name => if name.length > w then name.length else w) w0)
    ∧ (names.foldl (fun w name => if name.length > w then name.length else w) w0 = w0
        ∨ ∃ n ∈ names, n.length = names.foldl (fun w name => if name.length > w then name.length else w) w0)
    ∧ names.foldl (fun w name => if name.length > w then name.length else w) w0
        = (names.map List.length).foldr max w0 := by
  induction names with
  | nil => intro w0; simp
  | cons a l ih =>
    intro w0
    simp only [List.foldl_cons, List.mem_cons, List.map_cons, List.foldr_cons]
    obtain ⟨h1, h2, h3, h4⟩ := ih (if a.length > w0 then a.length else w0)
    have h5 : (List.map List.length l).foldr max (if a.length > w0 then a.length else w0)
        = max a.length ((List.map List.length l).foldr max w0) := by
      clear h1 h2 h3 h4 ih
      induction l with
      | nil => simp only [List.map_nil, List.foldr_nil]; split_ifs <;> omega
      | cons b l ihl => simp only [List.map_cons, List.foldr_cons, ihl]; omega
    have hm : w0 ≤ (if a.length > w0 then a.length else w0)
        ∧ a.length ≤ (if a.length > w0 then a.length else w0) := by
      split_ifs <;> omega
    refine ⟨?_, ?_, ?_, ?_⟩
    · exact Nat.le_trans hm.1 h1
    · rintro n (rfl | hn)
      · exact Nat.le_trans hm.2 h1
      · exact h2 n hn
    · rcases h3 with h | ⟨n, hn, hl⟩
      · by_cases ha : a.length > w0
        · right; exact ⟨a, Or.inl rfl, by rw [h, if_pos ha]⟩
        · left; rw [h, if_neg ha]
      · right; exact ⟨n, Or.inr hn, hl⟩
    · rw [h4, h5]

theorem fmtStarS_pad (width : Int) (s : Str) (h0 : 0 ≤ width) (h1 : width ≤ 1000000) :
    fmtStarS width s = List.replicate (width.toNat - runeCount s) 0x20 ++ s := by
  unfold fmtStarS
  rw [if_neg (by omega), if_neg (by omega)]

/-! ## The claims on the sequential code -/

/-- C6: when a domain file is given and scans without error, getNames returns, in file
order, the first whitespace-delimited token of every line that after trimming is non-empty
and does not start with '#', followed by the command-line arguments in their order; the
other lines contribute nothing.  Without a domain file it returns the arguments. -/
theorem getNames_spec (domainFile : Str) (lines args : List Str) (h : domainFile ≠ []) :
    getNames domainFile (.ok ⟨lines, none⟩) args = .ok (namesSpec lines args)
    ∧ (∀ file, getNames [] file args = .ok args) := by
  constructor
  · have hl : domainFile.length > 0 := List.length_pos.2 h
    simp [getNames, hl, scanLoop_eq, namesSpec]
  · intro file; simp [getNames]

theorem getNames_spec_witness :
    getNames (lit "d.txt")
      (.ok ⟨[lit "  a.com  x", lit "", lit " # c", lit "b.org"], none⟩) [lit "z.net"]
      = .ok (namesSpec [lit "  a.com  x", lit "", lit " # c", lit "b.org"] [lit "z.net"])
    ∧ (∀ file, getNames [] file [lit "z.net"] = .ok [lit "z.net"]) :=
  getNames_spec (lit "d.txt") _ _ (by decide)

/-- C10: for every string s whose TrimSpace is non-empty, Fields of the trimmed string is
a non-empty list whose first element is non-empty and has no white space: none of its runes
is white space, and none of its bytes is an ASCII white space byte; hence the index
`strings.Fields(line)[0]` of getNames is never out of range: the scan loop returns for
every sequence of lines, and every name it collects is such a token. -/
theorem fields_index_in_range (s : Str) (h : TrimSpace s ≠ []) (lines : List Str) :
    (∃ tok rest, Fields (TrimSpace s) = tok :: rest ∧ index0 (Fields (TrimSpace s)) = some tok
      ∧ tok ≠ [] ∧ (∀ c ∈ runes tok, isSpace c.1 = false)
      ∧ ∀ b ∈ tok, b < 0x80 → isSpace b = false)
    ∧ (∃ names, scanLoop [] lines = some names
      ∧ ∀ n ∈ names, n ≠ [] ∧ (∀ c ∈ runes n, isSpace c.1 = false)
        ∧ ∀ b ∈ n, b < 0x80 → isSpace b = false) := by
  constructor
  · obtain ⟨rest, hrest⟩ := Fields_TrimSpace s h
    obtain ⟨h1, h2⟩ := firstToken_runes s h
    exact ⟨firstToken s, rest, hrest, by rw [hrest]; rfl, h1, h2, no_space_byte _ h2⟩
  · refine ⟨_, scanLoop_eq lines [], ?_⟩
    intro n hn
    simp only [List.nil_append, List.mem_map, List.mem_filter] at hn
    obtain ⟨l, ⟨_, hrec⟩, rfl⟩ := hn
    have hne : TrimSpace l ≠ [] := by
      intro h0
      simp [isRecord, h0] at hrec
    obtain ⟨h1, h2⟩ := firstToken_runes l hne
    exact ⟨h1, h2, no_space_byte _ h2⟩

theorem fields_index_in_range_witness :
    TrimSpace (lit "  a.com  x ") ≠ []
    ∧ (∃ tok rest, Fields (TrimSpace (lit "  a.com  x ")) = tok :: rest
      ∧ index0 (Fields (TrimSpace (lit "  a.com  x "))) = some tok
      ∧ tok ≠ [] ∧ (∀ c ∈ runes tok, isSpace c.1 = false)
      ∧ ∀ b ∈ tok, b < 0x80 → isSpace b = false)
    ∧ (∃ names, scanLoop [] [lit " b.org # x", lit "#"] = some names
      ∧ ∀ n ∈ names, n ≠ [] ∧ (∀ c ∈ runes n, isSpace c.1 = false)
        ∧ ∀ b ∈ n, b < 0x80 → isSpace b = false) :=
  ⟨by decide,
    fields_index_in_range (lit "  a.com  x ") (by decide) [lit " b.org # x", lit "#"]⟩

/-- C7: the width main computes is the maximum byte length over the names, 0 for the empty
list: every name is at most width long, and some name is exactly width long when there is
one. -/
theorem width_max (names : List Str) :
    width names = (names.map List.length).foldr max 0
    ∧ (∀ n ∈ names, n.length ≤ width names)
    ∧ (names ≠ [] → ∃ n ∈ names, n.length = width names)
    ∧ width [] = 0 := by
  obtain ⟨_, h2, h3, h4⟩ := width_foldl names 0
  refine ⟨h4, h2, ?_, rfl⟩
  intro h
  rcases h3 with h0 | h3
  · rcases names with _ | ⟨a, l⟩
    · exact absurd rfl h
    · refine ⟨a, List.mem_cons_self _ _, ?_⟩
      have := h2 a (List.mem_cons_self _ _)
      unfold width
      omega
  · exact h3

theorem width_max_witness :
    [lit "a.com", lit "example.org", lit "b.net"] ≠ []
    ∧ ∃ n ∈ [lit "a.com", lit "example.org", lit "b.net"],
        n.length = width [lit "a.com", lit "example.org", lit "b.net"] :=
  ⟨by decide, (width_max [lit "a.com", lit "example.org", lit "b.net"]).2.2.1 (by decide)⟩

theorem flatten_replicate_singleton (n a : Nat) :
    (List.replicate n [a]).flatten = List.replicate n a := by
  induction n with
  | zero => rfl
  | succ n ih => simp [List.replicate_succ, ih]

theorem Repeat_dash (n : Nat) : Repeat (lit "-") (n : Int) = some (List.replicate n 0x2D) := by
  unfold Repeat
  rw [if_neg (by omega)]
  show some (List.replicate (n : Int).toNat [0x2D]).flatten = _
  rw [Int.toNat_ofNat, flatten_replicate_singleton]

theorem width_le_iff (names : List Str) (b : Nat) :
    width names ≤ b ↔ ∀ n ∈ names, n.length ≤ b := by
  obtain ⟨_, h2, h3, _⟩ := width_foldl names 0
  constructor
  · intro h n hn
    exact Nat.le_trans (h2 n hn) h
  · intro h
    rcases h3 with h0 | ⟨n, hn, hl⟩
    · unfold width; omega
    · unfold width; rw [← hl]; exact h n hn

/-- C9: in verbose mode, when no name is longer than 78 bytes the separator line of the
header is width dashes, "-+-" and 78-width dashes, 81 characters in all, and main goes on to
launch the probes with the header written; when some name is longer than 78 bytes the
count 80-width-2 is negative, strings.Repeat panics, and main panics with nothing written
and no probe launched. -/
theorem header_separator (names : List Str) :
    ((∀ n ∈ names, n.length ≤ 78) →
      separator (width names)
        = some (List.replicate (width names) 0x2D ++ lit "-+-"
            ++ List.replicate (78 - width names) 0x2D)
      ∧ (List.replicate (width names) 0x2D ++ lit "-+-"
            ++ List.replicate (78 - width names) 0x2D).length = 81
      ∧ ∀ fl file, fl.versionCheck = false → fl.scriptOutput = false → names ≠ [] →
          getNames fl.domainFile file fl.args = .ok names →
          mainStart fl file = .launch names
            [fmtStarS (width names) (lit "Server") ++ lit " | Certificate status\n"
              ++ (List.replicate (width names) 0x2D ++ lit "-+-"
                ++ List.replicate (78 - width names) 0x2D) ++ lit "\n"])
    ∧ ((∃ n ∈ names, 78 < n.length) →
      80 - (width names : Int) - 2 < 0
      ∧ Repeat (lit "-") (80 - (width names : Int) - 2) = none
      ∧ header (width names) = none
      ∧ ∀ fl file, fl.versionCheck = false → fl.scriptOutput = false →
          getNames fl.domainFile file fl.args = .ok names → mainStart fl file = .panic) := by
  have usage : ∀ (fl : Flags) (file : Except Str Scanned), names ≠ [] →
      getNames fl.domainFile file fl.args = .ok names →
      ¬ (fl.args.length = 0 ∧ fl.domainFile.length = 0) := by
    intro fl file hne hg hu
    have h1 : fl.args = [] := List.eq_nil_of_length_eq_zero hu.1
    have h2 : fl.domainFile = [] := List.eq_nil_of_length_eq_zero hu.2
    rw [h1, h2] at hg
    simp [getNames] at hg
    exact hne hg
  constructor
  · intro h
    have hw : width names ≤ 78 := (width_le_iff names 78).2 h
    have hsep : separator (width names)
        = some (List.replicate (width names) 0x2D ++ lit "-+-"
            ++ List.replicate (78 - width names) 0x2D) := by
      unfold separator
      have hcount : (80 - (width names : Int) - 2) = ((78 - width names : Nat) : Int) := by
        omega
      rw [hcount, Repeat_dash, Repeat_dash]
    refine ⟨hsep, ?_, ?_⟩
    · have : (lit "-+-").length = 3 := rfl
      simp only [List.length_append, List.length_replicate, this]
      omega
    · intro fl file hv hs hne hg
      have hu := usage fl file hne hg
      unfold mainStart header
      rw [if_neg (by simp [hv]), if_neg hu, hg]
      simp only [hs, hsep]
      simp
  · rintro ⟨n, hn, hlong⟩
    have hw : ¬ width names ≤ 78 := by
      intro hle
      have := (width_le_iff names 78).1 hle n hn
      omega
    have hneg : 80 - (width names : Int) - 2 < 0 := by omega
    have hrep : Repeat (lit "-") (80 - (width names : Int) - 2) = none := by
      unfold Repeat; rw [if_pos hneg]
    have hhead : header (width names) = none := by
      unfold header separator
      rw [hrep, Repeat_dash]
    refine ⟨hneg, hrep, hhead, ?_⟩
    intro fl file hv hs hg
    have hu := usage fl file (List.ne_nil_of_mem hn) hg
    unfold mainStart
    rw [if_neg (by simp [hv]), if_neg hu, hg]
    simp only [hs, hhead]
    simp

theorem header_separator_witness :
    ((∀ n ∈ [lit "a.com", lit "example.org"], n.length ≤ 78)
      ∧ separator (width [lit "a.com", lit "example.org"])
        = some (List.replicate (width [lit "a.com", lit "example.org"]) 0x2D ++ lit "-+-"
            ++ List.replicate (78 - width [lit "a.com", lit "example.org"]) 0x2D))
    ∧ ((∃ n ∈ [List.replicate 79 0x61], 78 < n.length)
      ∧ header (width [List.replicate 79 0x61]) = none) :=
  ⟨⟨by decide, ((header_separator [lit "a.com", lit "example.org"]).1 (by decide)).1⟩,
    ⟨⟨_, List.mem_singleton.2 rfl, by decide⟩,
      ((header_separator [List.replicate 79 0x61]).2
        ⟨_, List.mem_singleton.2 rfl, by decide⟩).2.2.1⟩⟩

/-! ## The claims on `check` -/

/-- C4: when the TLS dial returns an error, check dials and writes exactly one line, which
contains the text of the error, and does nothing else: it neither verifies the host name
nor reads the peer certificates.  In script mode the line is the server name as the verb
`%*s` renders it at the width, then " error 1970-01-01 (", the error text and ")"; that
rendering is the name after width minus its rune count spaces, for a width from 0 to the
million that package fmt accepts. -/
theorem check_dial_error (scriptOutput : Bool) (humanize : Time → Str)
    (dial : Str → Except Str Conn) (server : Str) (width : Int) (err : Str)
    (h : dial (server ++ lit ":443") = .error err) :
    (∃ line, check scriptOutput humanize dial server width
        = [.dial (server ++ lit ":443"), .print line]
      ∧ prints (check scriptOutput humanize dial server width) = [line]
      ∧ err <:+: line
      ∧ (scriptOutput = true →
          line = fmtStarS width server ++ lit " error 1970-01-01 (" ++ err ++ lit ")\n"))
    ∧ (0 ≤ width → width ≤ 1000000 →
        fmtStarS width server = List.replicate (width.toNat - runeCount server) 0x20 ++ server) := by
  refine ⟨?_, fmtStarS_pad width server⟩
  cases scriptOutput
  · exact ⟨fmtStarS width server ++ lit " | " ++ err ++ lit "\n", by simp [check, h],
      by simp [check, h, prints], ⟨_, _, rfl⟩, by simp⟩
  · exact ⟨fmtStarS width server ++ lit " error 1970-01-01 (" ++ err ++ lit ")\n",
      by simp [check, h], by simp [check, h, prints], ⟨_, _, rfl⟩, fun _ => rfl⟩

theorem check_dial_error_witness :
    (fun _ => Except.error (lit "refused") : Str → Except Str Conn) (lit "a.com" ++ lit ":443")
      = .error (lit "refused")
    ∧ prints (check true (fun _ => []) (fun _ => .error (lit "refused")) (lit "a.com") 7)
      = [lit "  a.com error 1970-01-01 (refused)\n"]
    ∧ fmtStarS 7 (lit "a.com")
      = List.replicate ((7 : Int).toNat - runeCount (lit "a.com")) 0x20 ++ lit "a.com" := by
  obtain ⟨⟨line, _, h2, _, h4⟩, h5⟩ := check_dial_error true (fun _ => [])
    (fun _ => .error (lit "refused")) (lit "a.com") 7 (lit "refused") rfl
  refine ⟨rfl, ?_, h5 (by decide) (by decide)⟩
  rw [h2, h4 rfl]
  decide

/-- C3: when the dial succeeds, host name verification succeeds and the list of peer
certificates is not empty, check writes exactly one line, the 'valid' line with the date of
the NotAfter of the first certificate of the list; the certificates after the first do not
enter the output. -/
theorem check_valid_first (scriptOutput : Bool) (humanize : Time → Str)
    (dial : Str → Except Str Conn) (server : Str) (width : Int) (conn : Conn)
    (c : Certificate) (rest : List Certificate)
    (hd : dial (server ++ lit ":443") = .ok conn) (hv : conn.verifyHostname = none)
    (hc : conn.PeerCertificates = c :: rest) :
    prints (check scriptOutput humanize dial server width)
      = [if scriptOutput then
          fmtStarS width server ++ lit " valid " ++ formatDate c.NotAfter ++ lit "\n"
        else
          fmtStarS width server ++ lit " | valid, expires on " ++ formatDate c.NotAfter
            ++ lit " (" ++ humanize c.NotAfter ++ lit ")\n"]
    ∧ ∀ rest1 : List Certificate,
        check scriptOutput humanize (fun _ => .ok ⟨none, c :: rest1⟩) server width
          = check scriptOutput humanize dial server width := by
  constructor
  · simp [check, hd, hv, hc, prints, report]
  · intro rest1
    simp [check, hd, hv, hc, report]

theorem check_valid_first_witness :
    (⟨none, [⟨⟨2030, 1, 1, 0⟩⟩, ⟨⟨2041, 6, 5, 0⟩⟩]⟩ : Conn).verifyHostname = none
    ∧ prints (check true (fun _ => []) (fun _ => .ok ⟨none, [⟨⟨2030, 1, 1, 0⟩⟩, ⟨⟨2041, 6, 5, 0⟩⟩]⟩)
        (lit "a.com") 7)
      = [fmtStarS 7 (lit "a.com") ++ lit " valid " ++ formatDate ⟨2030, 1, 1, 0⟩ ++ lit "\n"]
    ∧ ∀ rest1 : List Certificate,
        check true (fun _ => []) (fun _ => .ok ⟨none, ⟨⟨2030, 1, 1, 0⟩⟩ :: rest1⟩) (lit "a.com") 7
          = check true (fun _ => [])
              (fun _ => .ok ⟨none, [⟨⟨2030, 1, 1, 0⟩⟩, ⟨⟨2041, 6, 5, 0⟩⟩]⟩) (lit "a.com") 7 :=
  ⟨rfl, check_valid_first true (fun _ => [])
    (fun _ => .ok ⟨none, [⟨⟨2030, 1, 1, 0⟩⟩, ⟨⟨2041, 6, 5, 0⟩⟩]⟩) (lit "a.com") 7 _ _ _
    rfl rfl rfl⟩

/-- C2, as stated, fails: the handshake succeeded and the verification of the host name
returned an error, yet with an empty list of peer certificates check writes nothing, so no
verification failure is reported. -/
theorem check_verification_failed_counterexample :
    (⟨some (lit "bad"), []⟩ : Conn).verifyHostname = some (lit "bad")
    ∧ prints (check true (fun _ => []) (fun _ => .ok ⟨some (lit "bad"), []⟩) (lit "a.com") 5)
        = []
    ∧ prints (check false (fun _ => []) (fun _ => .ok ⟨some (lit "bad"), []⟩) (lit "a.com") 5)
        = [] := by
  decide

/-- C2, amended: when the dial succeeds and the verification of the host name returns an
error, check writes exactly one line if the list of peer certificates is not empty, and
none if it is empty.  The line starts with the server name as `%*s` renders it and contains
the description of the error; it is the same for every non-empty list of certificates, so
no expiry date enters it. -/
theorem check_verification_failed (scriptOutput : Bool) (humanize : Time → Str)
    (dial : Str → Except Str Conn) (server : Str) (width : Int) (conn : Conn) (e : Str)
    (hd : dial (server ++ lit ":443") = .ok conn) (hv : conn.verifyHostname = some e) :
    (conn.PeerCertificates ≠ [] →
      ∃ line, prints (check scriptOutput humanize dial server width) = [line]
        ∧ fmtStarS width server <+: line ∧ e <:+: line
        ∧ ∀ (certs : List Certificate) (humanize1 : Time → Str), certs ≠ [] →
            prints (check scriptOutput humanize1 (fun _ => .ok ⟨some e, certs⟩) server width)
              = [line])
    ∧ (conn.PeerCertificates = [] →
        prints (check scriptOutput humanize dial server width) = []) := by
  constructor
  · intro hne
    rcases hc : conn.PeerCertificates with _ | ⟨c, rest⟩
    · exact absurd hc hne
    · refine ⟨fmtStarS width server ++ lit ", " ++ e ++ lit "\n", ?_, ?_, ⟨_, _, rfl⟩, ?_⟩
      · simp [check, hd, hv, hc, prints, report]
      · exact ⟨lit ", " ++ e ++ lit "\n", by simp⟩
      · intro certs humanize1 hcerts
        rcases certs with _ | ⟨c1, rest1⟩
        · exact absurd rfl hcerts
        · simp [check, prints, report]
  · intro hc
    simp [check, hd, hc, prints]

theorem check_verification_failed_witness :
    ((⟨some (lit "bad"), [⟨⟨2030, 1, 1, 0⟩⟩]⟩ : Conn).PeerCertificates ≠ []
      ∧ ∃ line, prints (check true (fun _ => [])
          (fun _ => .ok ⟨some (lit "bad"), [⟨⟨2030, 1, 1, 0⟩⟩]⟩) (lit "a.com") 7) = [line]
        ∧ fmtStarS 7 (lit "a.com") <+: line ∧ lit "bad" <:+: line)
    ∧ ((⟨some (lit "bad"), []⟩ : Conn).PeerCertificates = []
      ∧ prints (check false (fun _ => []) (fun _ => .ok ⟨some (lit "bad"), []⟩) (lit "a.com") 7)
        = []) := by
  obtain ⟨line, h1, h2, h3, _⟩ := (check_verification_failed true (fun _ => [])
    (fun _ => .ok ⟨some (lit "bad"), [⟨⟨2030, 1, 1, 0⟩⟩]⟩) (lit "a.com") 7 _ (lit "bad")
    rfl rfl).1 (by decide)
  exact ⟨⟨by decide, line, h1, h2, h3⟩, rfl,
    (check_verification_failed false (fun _ => [])
      (fun _ => .ok ⟨some (lit "bad"), []⟩) (lit "a.com") 7 _ (lit "bad") rfl rfl).2 rfl⟩

/-- The branch of `check` for a connection on which `conn.VerifyHostname` returns an
error, in script mode: the line is the padded server name, a comma and the error text.  A
dial with a nil configuration does not reach this branch, the handshake having verified the
same name already. -/
theorem check_verification_branch (humanize : Time → Str) (c : Certificate) :
    check true humanize (fun _ => .ok ⟨some (lit "bad"), [c]⟩) (lit "a.com") 7
      = [.dial (lit "a.com:443"), .verify (lit "a.com"), .peerCertificates,
          .print (lit "  a.com, bad\n"), .close] := by
  simp only [check, report]
  decide

/-! ## Lemmas on dates -/

theorem digitChar_isDigit (d : Nat) (h : d < 10) : isDigit (Nat.digitChar d).toNat = true := by
  interval_cases d <;> decide

theorem toDigitsCore_isDigit (fuel : Nat) : ∀ (n : Nat) (ds : List Char),
    (∀ c ∈ ds, isDigit c.toNat = true) →
    ∀ c ∈ Nat.toDigitsCore 10 fuel n ds, isDigit c.toNat = true := by
  induction fuel with
  | zero => intro n ds h c hc; exact h c hc
  | succ fuel ih =>
    intro n ds h c hc
    have hd := digitChar_isDigit (n % 10) (Nat.mod_lt _ (by decide))
    have hcons : ∀ c ∈ Nat.digitChar (n % 10) :: ds, isDigit c.toNat = true := by
      intro c1 hc1
      rcases List.mem_cons.1 hc1 with rfl | hc1
      · exact hd
      · exact h c1 hc1
    simp only [Nat.toDigitsCore] at hc
    split_ifs at hc
    · exact hcons c hc
    · exact ih _ _ hcons c hc

/-- A number from 0 to below 10 ^ w is written by `appendInt` with exactly w digits. -/
theorem appendInt_shape (x : Int) (w : Nat) (h0 : 0 ≤ x) (h1 : x.natAbs < 10 ^ w)
    (hw : 0 < w) :
    (appendInt x w).length = w ∧ ∀ b ∈ appendInt x w, isDigit b = true := by
  have hlen : (Nat.toDigits 10 x.natAbs).length ≤ w :=
    Nat.toDigitsCore_length 10 (by decide) _ _ w h1 hw
  have hdig : ∀ c ∈ Nat.toDigits 10 x.natAbs, isDigit c.toNat = true :=
    toDigitsCore_isDigit _ _ [] (by intro c hc; simp at hc)
  unfold appendInt
  rw [if_neg (by omega)]
  constructor
  · simp only [List.nil_append, List.length_append, List.length_replicate, List.length_map]
    omega
  · intro b hb
    simp only [List.nil_append, List.mem_append, List.mem_replicate, List.mem_map] at hb
    rcases hb with ⟨_, rfl⟩ | ⟨c, hc, rfl⟩
    · decide
    · exact hdig c hc

/-- A date with a year from 0 to 9999, a month up to 12 and a day up to 31 is written in
the form YYYY-MM-DD. -/
theorem isoDate_formatDate (t : Time) (hy0 : 0 ≤ t.year) (hy1 : t.year ≤ 9999)
    (hm : t.month ≤ 12) (hd : t.day ≤ 31) : isoDate (formatDate t) = true := by
  obtain ⟨hyl, hyd⟩ := appendInt_shape t.year 4 hy0 (by omega) (by decide)
  obtain ⟨hml, hmd⟩ := appendInt_shape (t.month : Int) 2 (by omega)
    (by rw [Int.natAbs_ofNat]; omega) (by decide)
  obtain ⟨hdl, hdd⟩ := appendInt_shape (t.day : Int) 2 (by omega)
    (by rw [Int.natAbs_ofNat]; omega) (by decide)
  unfold formatDate
  rcases hY : appendInt t.year 4 with _ | ⟨y1, _ | ⟨y2, _ | ⟨y3, _ | ⟨y4, _ | ⟨y5, Y⟩⟩⟩⟩⟩ <;>
    rw [hY] at hyl hyd <;> simp only [List.length_cons, List.length_nil] at hyl <;>
    try omega
  rcases hM : appendInt (t.month : Int) 2 with _ | ⟨m1, _ | ⟨m2, _ | ⟨m3, M⟩⟩⟩ <;>
    rw [hM] at hml hmd <;> simp only [List.length_cons, List.length_nil] at hml <;>
    try omega
  rcases hD : appendInt (t.day : Int) 2 with _ | ⟨d1, _ | ⟨d2, _ | ⟨d3, D⟩⟩⟩ <;>
    rw [hD] at hdl hdd <;> simp only [List.length_cons, List.length_nil] at hdl <;>
    try omega
  simp only [List.cons_append, List.nil_append, isoDate]
  simp [hyd y1, hyd y2, hyd y3, hyd y4, hmd m1, hmd m2, hdd d1, hdd d2]

/-- C5: a dial with a nil configuration verifies the host name during the handshake, so
that on a connection it returns `conn.VerifyHostname` gives nil.  For every such dial
outcome, every line check writes in script mode is the padded server name followed by the
token 'error', the date 1970-01-01 and the error text in parentheses, or by the token
'valid' and the date of the first certificate as `Format("2006-01-02")` writes it; both
dates have the form YYYY-MM-DD, the second for a year from 0 to 9999, which is what a
certificate can hold; the padding is that of `%*s`, spaces before the name up to the width
in runes, for a width from 0 to the million that package fmt accepts. -/
theorem check_script_lines (humanize : Time → Str) (dial : Str → Except Str Conn)
    (server : Str) (width : Int) (line : Str)
    (hreal : ∀ conn, dial (server ++ lit ":443") = .ok conn → conn.verifyHostname = none)
    (hline : line ∈ prints (check true humanize dial server width)) :
    ((∃ err, dial (server ++ lit ":443") = .error err
        ∧ line = fmtStarS width server ++ lit " error " ++ lit "1970-01-01" ++ lit " ("
            ++ err ++ lit ")\n")
      ∨ (∃ conn c rest, dial (server ++ lit ":443") = .ok conn
        ∧ conn.PeerCertificates = c :: rest
        ∧ line = fmtStarS width server ++ lit " valid " ++ formatDate c.NotAfter ++ lit "\n"))
    ∧ isoDate (lit "1970-01-01") = true
    ∧ (∀ t : Time, 0 ≤ t.year → t.year ≤ 9999 → t.month ≤ 12 → t.day ≤ 31 →
        isoDate (formatDate t) = true)
    ∧ (0 ≤ width → width ≤ 1000000 →
        fmtStarS width server = List.replicate (width.toNat - runeCount server) 0x20 ++ server) := by
  refine ⟨?_, by decide, isoDate_formatDate, fmtStarS_pad width server⟩
  rcases hdial : dial (server ++ lit ":443") with err | conn
  · left
    refine ⟨err, rfl, ?_⟩
    simp only [check, hdial, prints, if_true, List.filterMap_cons, List.filterMap_nil,
      List.mem_singleton] at hline
    rw [hline]
    have : lit " error 1970-01-01 (" = lit " error " ++ lit "1970-01-01" ++ lit " (" := by
      decide
    rw [this]
    simp only [List.append_assoc]
  · right
    have hv := hreal conn hdial
    rcases hc : conn.PeerCertificates with _ | ⟨c, rest⟩
    · simp [check, hdial, hc, prints] at hline
    · refine ⟨conn, c, rest, rfl, hc, ?_⟩
      simp only [check, hdial, hc, hv, prints, report, if_true, List.filterMap_cons,
        List.filterMap_nil, List.mem_singleton] at hline
      exact hline

theorem check_script_lines_witness :
    (lit "  a.com valid 2030-01-01\n"
        ∈ prints (check true (fun _ => []) (fun _ => .ok ⟨none, [⟨⟨2030, 1, 1, 0⟩⟩]⟩)
            (lit "a.com") 7)
      ∧ isoDate (formatDate ⟨2030, 1, 1, 0⟩) = true
      ∧ fmtStarS 7 (lit "a.com")
        = List.replicate ((7 : Int).toNat - runeCount (lit "a.com")) 0x20 ++ lit "a.com")
    ∧ (lit "  a.com error 1970-01-01 (refused)\n"
        ∈ prints (check true (fun _ => []) (fun _ => .error (lit "refused")) (lit "a.com") 7)
      ∧ ((∃ err, (fun _ => Except.error (lit "refused") : Str → Except Str Conn)
              (lit "a.com" ++ lit ":443") = .error err
            ∧ lit "  a.com error 1970-01-01 (refused)\n"
              = fmtStarS 7 (lit "a.com") ++ lit " error " ++ lit "1970-01-01" ++ lit " ("
                ++ err ++ lit ")\n")
          ∨ (∃ conn c rest, (fun _ => Except.error (lit "refused") : Str → Except Str Conn)
              (lit "a.com" ++ lit ":443") = .ok conn
            ∧ conn.PeerCertificates = c :: rest
            ∧ lit "  a.com error 1970-01-01 (refused)\n"
              = fmtStarS 7 (lit "a.com") ++ lit " valid " ++ formatDate c.NotAfter
                ++ lit "\n"))) := by
  have h1 := check_script_lines (fun _ => []) (fun _ => .ok ⟨none, [⟨⟨2030, 1, 1, 0⟩⟩]⟩)
    (lit "a.com") 7 (lit "  a.com valid 2030-01-01\n")
    (by intro conn h; cases h; rfl) (by decide)
  have h2 := check_script_lines (fun _ => []) (fun _ => .error (lit "refused"))
    (lit "a.com") 7 (lit "  a.com error 1970-01-01 (refused)\n")
    (by intro conn h; cases h) (by decide)
  exact ⟨⟨by decide,
      h1.2.2.1 ⟨2030, 1, 1, 0⟩ (by decide) (by decide) (by decide) (by decide),
      h1.2.2.2 (by decide) (by decide)⟩,
    by decide, h2.1⟩

/-! ## Lemmas on the goroutines -/

theorem tallyFrom_append {M : Type} [AddCommMonoid M] (f : Nat → Phase → M) (l : List Phase)
    (ph : Phase) : ∀ k, tallyFrom f k (l ++ [ph]) = tallyFrom f k l + f (k + l.length) ph := by
  induction l with
  | nil => intro k; simp [tallyFrom]
  | cons a l ih =>
    intro k
    have h1 := ih (k + 1)
    rw [show k + 1 + l.length = k + (l.length + 1) by omega] at h1
    show f k a + tallyFrom f (k + 1) (l ++ [ph]) = f k a + tallyFrom f (k + 1) l + _
    rw [h1, add_assoc]
    rfl

theorem tallyFrom_set {M : Type} [AddCommMonoid M] (f : Nat → Phase → M) (l : List Phase)
    (ph ph1 : Phase) : ∀ k i, l[i]? = some ph →
      tallyFrom f k (l.set i ph1) + f (k + i) ph = tallyFrom f k l + f (k + i) ph1 := by
  induction l with
  | nil => intro k i h; simp at h
  | cons a l ih =>
    intro k i h
    rcases i with _ | i
    · simp only [List.getElem?_cons_zero, Option.some.injEq] at h
      subst h
      simp only [List.set_cons_zero, tallyFrom, Nat.add_zero]
      abel
    · simp only [List.getElem?_cons_succ] at h
      have h1 := ih (k + 1) i h
      rw [show k + 1 + i = k + (i + 1) by omega] at h1
      show f k a + tallyFrom f (k + 1) (l.set i ph1) + _ = f k a + tallyFrom f (k + 1) l + _
      rw [add_assoc, h1, add_assoc]

theorem sentCount_le (l : List Phase) : ∀ k,
    tallyFrom (fun _ ph => if ph = Phase.done then 1 else 0) k l ≤ l.length := by
  induction l with
  | nil => intro k; simp [tallyFrom]
  | cons a l ih =>
    intro k
    have := ih (k + 1)
    simp only [tallyFrom, List.length_cons]
    split_ifs <;> omega

theorem sentCount_full (l : List Phase) : ∀ k,
    tallyFrom (fun _ ph => if ph = Phase.done then 1 else 0) k l = l.length →
    ∀ ph ∈ l, ph = Phase.done := by
  induction l with
  | nil => intro k _ ph hph; simp at hph
  | cons a l ih =>
    intro k h ph hph
    have hle := sentCount_le l (k + 1)
    simp only [tallyFrom, List.length_cons] at h
    by_cases ha : a = Phase.done
    · rw [if_pos ha] at h
      rcases List.mem_cons.1 hph with rfl | hm
      · exact ha
      · exact ih (k + 1) (by omega) ph hm
    · rw [if_neg ha] at h
      omega

theorem eq_replicate_done (l : List Phase) (h : ∀ ph ∈ l, ph = Phase.done) :
    l = List.replicate l.length Phase.done :=
  List.eq_replicate_iff.2 ⟨rfl, h⟩

theorem written_done (w : World) (n : Nat) : ∀ k,
    tallyFrom (fun k ph => if ph = Phase.ready then 0 else (emitted w k : Multiset Str)) k
        (List.replicate n Phase.done)
      = (((List.range' k n).flatMap (emitted w) : List Str) : Multiset Str) := by
  induction n with
  | zero => intro k; simp [tallyFrom]
  | succ n ih =>
    intro k
    simp only [List.replicate_succ, tallyFrom, ih, List.range'_succ, List.flatMap_cons]
    simp

theorem emitted_length (w : World) (k : Nat) :
    (emitted w k).length = if emits w k then 1 else 0 := by
  unfold emitted emits check
  rcases w.net k (w.names.getD k [] ++ lit ":443") with e | conn
  · cases w.scriptOutput <;> simp [prints]
  · rcases hc : conn.PeerCertificates with _ | ⟨c, rest⟩ <;> simp [prints, hc]

theorem flatMap_emitted_length (w : World) (l : List Nat) :
    (l.flatMap (emitted w)).length = (l.filter (emits w)).length := by
  induction l with
  | nil => rfl
  | cons a l ih =>
    simp only [List.flatMap_cons, List.length_append, ih, emitted_length, List.filter_cons]
    cases emits w a
    · simp
    · simp; omega

theorem sentCount_all_done (l : List Phase) (h : ∀ ph ∈ l, ph = Phase.done) : ∀ k,
    tallyFrom (fun _ ph => if ph = Phase.done then 1 else 0) k l = l.length := by
  induction l with
  | nil => intro k; rfl
  | cons a l ih =>
    intro k
    have ha : a = Phase.done := h a (List.mem_cons_self _ _)
    have := ih (fun ph hph => h ph (List.mem_cons_of_mem _ hph)) (k + 1)
    simp only [tallyFrom, List.length_cons, this, ha, if_true]
    omega

theorem sentCount_lt (l : List Phase) (i : Nat) (ph : Phase) (h : l[i]? = some ph)
    (hph : ph ≠ Phase.done) : sentCount l < l.length := by
  have hle := sentCount_le l 0
  by_contra hnot
  have hfull : tallyFrom (fun _ ph => if ph = Phase.done then 1 else 0) 0 l = l.length := by
    unfold sentCount at hnot; omega
  exact hph (sentCount_full l 0 hfull ph (List.getElem?_mem h))

theorem inv_start (w : World) (out0 : List Str) : Inv w out0 (start out0) := by
  refine ⟨rfl, Nat.zero_le _, Nat.zero_le _, rfl, ?_, ?_, [], ?_, rfl⟩
  · intro h; exact absurd h (Nat.lt_irrefl 0)
  · intro h; simp [start] at h
  · simp [start]

theorem step_inv (w : World) (out0 : List Str) (s s1 : Sys) (a : Action)
    (hi : Inv w out0 s) (h : step w s a = some s1) : Inv w out0 s1 := by
  obtain ⟨hlen, hle, hrec, hsent, hwait, hexit, l, hout, hl⟩ := hi
  cases a with
  | launch =>
    simp only [step] at h
    split_ifs at h with hg
    obtain rfl := Option.some.inj h
    refine ⟨by simp [hlen], hg.2, hrec, ?_, ?_, ?_, l, hout, ?_⟩
    · show sentCount (s.phases ++ [Phase.ready]) = _
      unfold sentCount at hsent ⊢
      rw [tallyFrom_append, hsent]; simp
    · intro h0
      have := hwait h0
      omega
    · intro h0
      rw [hg.1] at h0
      exact absurd h0 (by decide)
    · show (l : Multiset Str) = written w (s.phases ++ [Phase.ready])
      unfold written at hl ⊢
      rw [tallyFrom_append, ← hl]; simp
  | check k =>
    simp only [step] at h
    split_ifs at h with hg
    obtain rfl := Option.some.inj h
    refine ⟨by simp [hlen], hle, hrec, ?_, hwait, hexit, l ++ emitted w k, ?_, ?_⟩
    · show sentCount (s.phases.set k Phase.checked) = _
      have := tallyFrom_set (fun _ ph => if ph = Phase.done then 1 else 0) s.phases
        Phase.ready Phase.checked 0 k hg.2
      unfold sentCount at hsent ⊢
      simp at this
      rw [this, hsent]
    · show s.out ++ emitted w k = out0 ++ (l ++ emitted w k)
      rw [hout, List.append_assoc]
    · show ((l ++ emitted w k : List Str) : Multiset Str) = written w (s.phases.set k Phase.checked)
      have := tallyFrom_set
        (fun k ph => if ph = Phase.ready then 0 else (emitted w k : Multiset Str)) s.phases
        Phase.ready Phase.checked 0 k hg.2
      unfold written at hl ⊢
      simp at this
      rw [this, ← hl]
      simp
  | send k =>
    simp only [step] at h
    split_ifs at h with hg
    obtain rfl := Option.some.inj h
    refine ⟨by simp [hlen], hle, hrec, ?_, hwait, hexit, l, hout, ?_⟩
    · show sentCount (s.phases.set k Phase.done) = s.buf + 1 + s.received
      have := tallyFrom_set (fun _ ph => if ph = Phase.done then 1 else 0) s.phases
        Phase.checked Phase.done 0 k hg.2.1
      unfold sentCount at hsent ⊢
      simp at this
      omega
    · show (l : Multiset Str) = written w (s.phases.set k Phase.done)
      have := tallyFrom_set
        (fun k ph => if ph = Phase.ready then 0 else (emitted w k : Multiset Str)) s.phases
        Phase.checked Phase.done 0 k hg.2.1
      unfold written at hl ⊢
      simp at this
      rw [this, ← hl]
  | recv =>
    simp only [step] at h
    split_ifs at h with hg
    obtain rfl := Option.some.inj h
    refine ⟨hlen, hle, ?_, ?_, fun _ => hg.2.1, ?_, l, hout, hl⟩
    · show s.received + 1 ≤ _
      omega
    rotate_left
    · intro h0
      have h1 : s.exited = true := h0
      rw [hg.1] at h1
      exact absurd h1 (by decide)
    · show sentCount s.phases = s.buf - 1 + (s.received + 1)
      omega
  | exit =>
    simp only [step] at h
    split_ifs at h with hg
    obtain rfl := Option.some.inj h
    exact ⟨hlen, hle, hrec, hsent, hwait, fun _ => ⟨hg.2.1, hg.2.2⟩, l, hout, hl⟩

theorem step_left (w : World) (out0 : List Str) (s s1 : Sys) (a : Action)
    (hi : Inv w out0 s) (h : step w s a = some s1) : stepsLeft w s1 + 1 = stepsLeft w s := by
  obtain ⟨hlen, hle, hrec, hsent, hwait, hexit, _⟩ := hi
  cases a with
  | launch =>
    simp only [step] at h
    split_ifs at h with hg
    obtain rfl := Option.some.inj h
    unfold stepsLeft
    simp only [tallyFrom_append, hg.1, Phase.left]
    simp
    omega
  | check k =>
    simp only [step] at h
    split_ifs at h with hg
    obtain rfl := Option.some.inj h
    have := tallyFrom_set (fun _ ph => ph.left) s.phases Phase.ready Phase.checked 0 k hg.2
    unfold stepsLeft
    simp only [Phase.left] at this ⊢
    omega
  | send k =>
    simp only [step] at h
    split_ifs at h with hg
    obtain rfl := Option.some.inj h
    have := tallyFrom_set (fun _ ph => ph.left) s.phases Phase.checked Phase.done 0 k hg.2.1
    unfold stepsLeft
    simp only [Phase.left] at this ⊢
    omega
  | recv =>
    simp only [step] at h
    split_ifs at h with hg
    obtain rfl := Option.some.inj h
    unfold stepsLeft
    simp only
    omega
  | exit =>
    simp only [step] at h
    split_ifs at h with hg
    obtain rfl := Option.some.inj h
    unfold stepsLeft
    simp [hg.1]

theorem run_inv (w : World) (out0 : List Str) (sched : List Action) : ∀ s s1 : Sys,
    Inv w out0 s → run w s sched = some s1 →
    Inv w out0 s1 ∧ stepsLeft w s1 + sched.length = stepsLeft w s := by
  induction sched with
  | nil =>
    intro s s1 hi h
    obtain rfl := Option.some.inj h
    exact ⟨hi, rfl⟩
  | cons a rest ih =>
    intro s s1 hi h
    simp only [run] at h
    rcases hs : step w s a with _ | s2
    · rw [hs] at h; exact absurd h (by simp)
    · rw [hs] at h
      obtain ⟨h1, h2⟩ := ih s2 s1 (step_inv w out0 s s2 a hi hs) h
      have h3 := step_left w out0 s s2 a hi hs
      exact ⟨h1, by simp only [List.length_cons]; omega⟩

theorem send_enabled (w : World) (out0 : List Str) (s : Sys) (k : Nat) (hi : Inv w out0 s)
    (hk : s.phases[k]? = some Phase.checked) :
    s.exited = false ∧ s.buf < w.names.length ∧ (step w s (.send k)).isSome = true := by
  obtain ⟨hlen, hle, hrec, hsent, hwait, hexit, _⟩ := hi
  have hlt := sentCount_lt s.phases k Phase.checked hk (by decide)
  have hbuf : s.buf < w.names.length := by omega
  have hex : s.exited = false := by
    cases he : s.exited
    · rfl
    · have := hexit he
      omega
  refine ⟨hex, hbuf, ?_⟩
  simp [step, hex, hk, hbuf]

theorem exit_all_done (w : World) (out0 : List Str) (s : Sys) (hi : Inv w out0 s)
    (he : s.exited = true) :
    s.received = w.names.length ∧ s.buf = 0
    ∧ s.phases = List.replicate w.names.length Phase.done := by
  obtain ⟨hlen, hle, hrec, hsent, hwait, hexit, _⟩ := hi
  obtain ⟨h1, h2⟩ := hexit he
  have hcl := sentCount_le s.phases 0
  have hfull : tallyFrom (fun _ ph => if ph = Phase.done then 1 else 0) 0 s.phases
      = s.phases.length := by
    unfold sentCount at hsent; omega
  refine ⟨h2, by unfold sentCount at hsent; omega, ?_⟩
  have := eq_replicate_done s.phases (sentCount_full s.phases 0 hfull)
  rw [this, hlen, h1]

theorem progress (w : World) (out0 : List Str) (s : Sys) (hi : Inv w out0 s)
    (he : s.exited = false) : ∃ a, (step w s a).isSome = true := by
  have hi0 := hi
  obtain ⟨hlen, hle, hrec, hsent, hwait, hexit, _⟩ := hi
  by_cases hl : s.launched < w.names.length
  · exact ⟨.launch, by simp [step, he, hl]⟩
  have hN : s.launched = w.names.length := by omega
  rcases Classical.em (∃ k : Nat, s.phases[k]? = some Phase.ready) with hr | hr
  · obtain ⟨k, hk⟩ := hr
    exact ⟨.check k, by simp [step, he, hk]⟩
  rcases Classical.em (∃ k : Nat, s.phases[k]? = some Phase.checked) with hc | hc
  · obtain ⟨k, hk⟩ := hc
    exact ⟨.send k, (send_enabled w out0 s k hi0 hk).2.2⟩
  have hall : ∀ ph ∈ s.phases, ph = Phase.done := by
    intro ph hph
    obtain ⟨k, hk⟩ := List.getElem?_of_mem hph
    cases ph with
    | ready => exact absurd ⟨k, hk⟩ hr
    | checked => exact absurd ⟨k, hk⟩ hc
    | done => rfl
  have hfull := sentCount_all_done s.phases hall 0
  have hsum : s.buf + s.received = w.names.length := by
    unfold sentCount at hsent; omega
  by_cases hrc : s.received < w.names.length
  · exact ⟨.recv, by simp [step, he, hN, hrc]; omega⟩
  · exact ⟨.exit, by simp [step, he, hN]; omega⟩

theorem complete (w : World) (out0 : List Str) : ∀ (n : Nat) (s : Sys), Inv w out0 s →
    stepsLeft w s ≤ n → ∃ sched s1, run w s sched = some s1 ∧ s1.exited = true := by
  intro n
  induction n with
  | zero =>
    intro s hi hn
    cases he : s.exited
    · unfold stepsLeft at hn
      simp [he] at hn
    · exact ⟨[], s, rfl, he⟩
  | succ n ih =>
    intro s hi hn
    cases he : s.exited
    · obtain ⟨a, ha⟩ := progress w out0 s hi he
      obtain ⟨s2, hs2⟩ := Option.isSome_iff_exists.1 ha
      have h3 := step_left w out0 s s2 a hi hs2
      obtain ⟨sched, s1, hrun, hex⟩ := ih s2 (step_inv w out0 s s2 a hi hs2) (by omega)
      exact ⟨a :: sched, s1, by simp [run, hs2, hrun], hex⟩
    · exact ⟨[], s, rfl, he⟩

theorem stepsLeft_start (w : World) (out0 : List Str) :
    stepsLeft w (start out0) = 4 * w.names.length + 1 := by
  simp [stepsLeft, start, tallyFrom]
  omega

/-! ## The claims on the concurrent part of `main` -/

/-- C8: in every state the second half of main can reach, the sends completed on the
channel are the values received plus the values buffered, at most len(names); when main has
left its receiving loop it has received exactly len(names) values, the channel is empty and
every goroutine has run check and sent, once each; a goroutine that has run check can always
send, the buffer having room; some step is enabled as long as main has not returned; every
run from the start has at most 4 len(names) + 1 steps and extends to the return of main. -/
theorem engine_barrier (w : World) (out0 : List Str) (sched : List Action) (s : Sys)
    (h : run w (start out0) sched = some s) :
    sentCount s.phases = s.buf + s.received
    ∧ s.buf + s.received ≤ w.names.length
    ∧ (s.exited = true →
        s.received = w.names.length ∧ s.buf = 0
        ∧ s.phases = List.replicate w.names.length Phase.done)
    ∧ (∀ k : Nat, s.phases[k]? = some Phase.checked →
        s.buf < w.names.length ∧ (step w s (.send k)).isSome = true)
    ∧ (s.exited = false → ∃ a, (step w s a).isSome = true)
    ∧ sched.length + stepsLeft w s = 4 * w.names.length + 1
    ∧ ∃ more s1, run w s more = some s1 ∧ s1.exited = true := by
  obtain ⟨hi, hsteps⟩ := run_inv w out0 sched (start out0) s (inv_start w out0) h
  have hi0 := hi
  obtain ⟨hlen, hle, hrec, hsent, hwait, hexit, _⟩ := hi
  have hcl := sentCount_le s.phases 0
  refine ⟨hsent, ?_, exit_all_done w out0 s hi0, ?_, progress w out0 s hi0, ?_,
    complete w out0 (stepsLeft w s) s hi0 (Nat.le_refl _)⟩
  · unfold sentCount at hsent; omega
  · intro k hk
    exact (send_enabled w out0 s k hi0 hk).2
  · rw [stepsLeft_start] at hsteps; omega

theorem engine_barrier_witness :
    (run sampleWorld (start []) [.launch, .launch, .check 1]
        = some ⟨2, [.ready, .checked], 0, 0, false, emitted sampleWorld 1⟩
      ∧ (step sampleWorld ⟨2, [.ready, .checked], 0, 0, false, emitted sampleWorld 1⟩
          (.send 1)).isSome = true
      ∧ ∃ a, (step sampleWorld ⟨2, [.ready, .checked], 0, 0, false, emitted sampleWorld 1⟩
          a).isSome = true)
    ∧ (run sampleWorld (start [])
          [.launch, .launch, .check 1, .check 0, .send 0, .send 1, .recv, .recv, .exit]
        = some ⟨2, [.done, .done], 0, 2, true, emitted sampleWorld 1 ++ emitted sampleWorld 0⟩
      ∧ (2 = sampleWorld.names.length ∧ 0 = 0
        ∧ [Phase.done, Phase.done] = List.replicate sampleWorld.names.length Phase.done)) := by
  have h1 := engine_barrier sampleWorld [] [.launch, .launch, .check 1]
    ⟨2, [.ready, .checked], 0, 0, false, emitted sampleWorld 1⟩ (by decide)
  have h2 := engine_barrier sampleWorld []
    [.launch, .launch, .check 1, .check 0, .send 0, .send 1, .recv, .recv, .exit]
    ⟨2, [.done, .done], 0, 2, true, emitted sampleWorld 1 ++ emitted sampleWorld 0⟩ (by decide)
  exact ⟨⟨by decide, (h1.2.2.2.1 1 rfl).2, h1.2.2.2.2.1 rfl⟩, by decide, h2.2.2.1 rfl⟩

/-- C1, as stated, fails: for one name whose server completes the handshake and presents
no peer certificate, the complete run of the engine writes no line at all. -/
theorem engine_lines_counterexample :
    silentWorld.names.length = 1
    ∧ run silentWorld (start []) [.launch, .check 0, .send 0, .recv, .exit]
      = some ⟨1, [.done], 0, 1, true, []⟩ := by
  decide

/-- C1, amended: for every list of names and every assignment of dial outcomes, the engine
has a complete run, and every complete run writes, after what main wrote before, the lines
of the probes in some order: one line for each name whose dial failed or whose connection
presents a peer certificate at least, and none for a name whose connection presents no
certificate; so the number of result lines is the number of those names, at most
len(names), and exactly len(names) when no connection has an empty list. -/
theorem engine_lines (w : World) (out0 : List Str) :
    (∃ sched s, run w (start out0) sched = some s ∧ s.exited = true)
    ∧ ∀ sched s, run w (start out0) sched = some s → s.exited = true →
        ∃ l, s.out = out0 ++ l
          ∧ l.Perm ((List.range w.names.length).flatMap (emitted w))
          ∧ l.length = ((List.range w.names.length).filter (emits w)).length
          ∧ l.length ≤ w.names.length
          ∧ ((∀ k < w.names.length, emits w k = true) → l.length = w.names.length) := by
  constructor
  · exact complete w out0 _ (start out0) (inv_start w out0) (Nat.le_refl _)
  · intro sched s h he
    obtain ⟨hi, _⟩ := run_inv w out0 sched (start out0) s (inv_start w out0) h
    obtain ⟨_, _, hph⟩ := exit_all_done w out0 s hi he
    obtain ⟨_, _, _, _, _, _, l, hout, hl⟩ := hi
    have hperm : l.Perm ((List.range w.names.length).flatMap (emitted w)) := by
      unfold written at hl
      rw [hph, written_done, ← List.range_eq_range'] at hl
      exact Multiset.coe_eq_coe.1 hl
    have hcount : l.length = ((List.range w.names.length).filter (emits w)).length := by
      rw [hperm.length_eq, flatMap_emitted_length]
    refine ⟨l, hout, hperm, hcount, ?_, ?_⟩
    · rw [hcount]
      exact Nat.le_trans (List.length_filter_le _ _) (by rw [List.length_range])
    · intro hall
      rw [hcount, List.filter_eq_self.2, List.length_range]
      intro k hk
      exact hall k (List.mem_range.1 hk)

theorem engine_lines_witness :
    run sampleWorld (start [])
        [.launch, .launch, .check 1, .check 0, .send 0, .send 1, .recv, .recv, .exit]
      = some ⟨2, [.done, .done], 0, 2, true, emitted sampleWorld 1 ++ emitted sampleWorld 0⟩
    ∧ ∃ l, emitted sampleWorld 1 ++ emitted sampleWorld 0 = [] ++ l
      ∧ l.Perm ((List.range sampleWorld.names.length).flatMap (emitted sampleWorld))
      ∧ l.length = sampleWorld.names.length := by
  obtain ⟨l, h1, h2, _, _, h5⟩ := (engine_lines sampleWorld []).2
    [.launch, .launch, .check 1, .check 0, .send 0, .send 1, .recv, .recv, .exit]
    ⟨2, [.done, .done], 0, 2, true, emitted sampleWorld 1 ++ emitted sampleWorld 0⟩
    (by decide) rfl
  exact ⟨by decide, l, h1, h2, h5 (by decide)⟩

end Certchk
